import Mathlib

/-!
Verification of the decomposition driver (`src/cmr/regularity.c`) and the
wheel-minor search (`src/find_wheel_minor.hpp`) of the CMR repository.

The driver code is embedded shallowly: the dispatcher `CMRregularityTaskRun`
becomes a pure function from the node attributes it inspects to the stage it
invokes; the task queue (a singly linked list of tasks with a shared
`foundIrregularity` flag) becomes an inductive linked structure; the two
entry-point loops become a fuel-indexed recursion parameterised over the
stage runner (the nine stage implementations live outside the two source
files and are therefore abstracted, as is consistent with the stage
contracts: side effects are scoped to the task's node and to the queue).
-/

namespace CMR

/-- Model of C `SIZE_MAX`, the sentinel used for
`nestedMinorsLastGraphic` / `nestedMinorsLastCographic`. -/
def SIZE_MAX : Nat := 2 ^ 64 - 1

/-- The nine stage functions that `CMRregularityTaskRun` can invoke,
in the order they appear in the source. -/
inductive Stage where
  | searchOneSum
  | testGraphicness
  | testCographicness
  | testR10
  | decomposeSeriesParallel
  | extendNestedMinorSequence
  | nestedMinorSequenceGraphicness
  | nestedMinorSequenceCographicness
  | nestedMinorSequenceSearchThreeSeparation
deriving DecidableEq, Repr

/-- The fields of `CMR_REGULAR_PARAMS` that the two source files read. -/
structure RegularParams where
  directGraphicness : Bool
  completeTree : Bool
deriving Repr

/-- The fields of a decomposition node (`CMR_MATROID_DEC`) that the
dispatcher `CMRregularityTaskRun` inspects.  The C ternary tags
(`graphicness`, `cographicness`) are signed integers with 0 meaning
"unset"; the two optional dense-matrix pointers are modelled by their
non-nullness; `nestedMinorsLastGraphic` / `nestedMinorsLastCographic`
are `size_t` values compared against `SIZE_MAX`. -/
structure DecNodeAttrs where
  testedTwoConnected : Bool
  graphicness : Int
  cographicness : Int
  testedR10 : Bool
  testedSeriesParallel : Bool
  denseMatrix : Bool
  nestedMinorsMatrix : Bool
  nestedMinorsLastGraphic : Nat
  nestedMinorsLastCographic : Nat
  numRows : Nat
  numColumns : Nat
deriving Repr

/-- The dispatcher `CMRregularityTaskRun` (regularity.c, lines 106-168):
the if/else-if chain choosing which stage to run on a popped task.
In C, `!task->dec->graphicness` tests the ternary tag against 0 (unset). -/
def CMRregularityTaskRun (params : RegularParams) (dec : DecNodeAttrs) : Stage :=
  if !dec.testedTwoConnected then
    .searchOneSum
  else if dec.graphicness == 0
      && (params.directGraphicness || dec.numRows ≤ 3 || dec.numColumns ≤ 3) then
    .testGraphicness
  else if dec.cographicness == 0
      && (params.directGraphicness || dec.numRows ≤ 3 || dec.numColumns ≤ 3) then
    .testCographicness
  else if !dec.testedR10 then
    .testR10
  else if !dec.testedSeriesParallel then
    .decomposeSeriesParallel
  else if dec.denseMatrix then
    .extendNestedMinorSequence
  else if dec.nestedMinorsMatrix && dec.nestedMinorsLastGraphic == SIZE_MAX then
    .nestedMinorSequenceGraphicness
  else if dec.nestedMinorsMatrix && dec.nestedMinorsLastCographic == SIZE_MAX then
    .nestedMinorSequenceCographicness
  else
    .nestedMinorSequenceSearchThreeSeparation

/-- The ordered decision table of the specification (section 4.C), written
as an explicit list of guard/stage rules, rule 9 being the default. -/
def dispatchTable (params : RegularParams) (dec : DecNodeAttrs) : List (Bool × Stage) :=
  [ (!dec.testedTwoConnected, .searchOneSum),
    (dec.graphicness == 0
      && (params.directGraphicness || dec.numRows ≤ 3 || dec.numColumns ≤ 3),
      .testGraphicness),
    (dec.cographicness == 0
      && (params.directGraphicness || dec.numRows ≤ 3 || dec.numColumns ≤ 3),
      .testCographicness),
    (!dec.testedR10, .testR10),
    (!dec.testedSeriesParallel, .decomposeSeriesParallel),
    (dec.denseMatrix, .extendNestedMinorSequence),
    (dec.nestedMinorsMatrix && dec.nestedMinorsLastGraphic == SIZE_MAX,
      .nestedMinorSequenceGraphicness),
    (dec.nestedMinorsMatrix && dec.nestedMinorsLastCographic == SIZE_MAX,
      .nestedMinorSequenceCographicness) ]

/-- First-match selection over an ordered rule table, with a default. -/
def firstMatching (dflt : Stage) : List (Bool × Stage) → Stage
  | [] => dflt
  | (g, s) :: rest => if g then s else firstMatching dflt rest

/-- A `DecompositionTask`: holds the reference to its decomposition node
(modelled as an identifier) and the `next` link of the intrusive singly
linked queue.  The scheduling-irrelevant fields (params, stats, clocks)
are omitted since neither queue operation reads them. -/
inductive DTask where
  | mk (dec : Nat) (next : Option DTask)

/-- The node reference held by a task. -/
def DTask.dec : DTask → Nat
  | .mk d _ => d

/-- The `next` link of a task. -/
def DTask.next : DTask → Option DTask
  | .mk _ n => n

/-- Assignment `task->next = n`. -/
def DTask.setNext (t : DTask) (n : Option DTask) : DTask := .mk t.dec n

/-- A `DecompositionQueue`: head of the intrusive task list plus the
shared `foundIrregularity` flag. -/
structure Queue where
  head : Option DTask
  foundIrregularity : Bool

/-- `CMRregularityQueueCreate` (regularity.c, lines 43-54). -/
def CMRregularityQueueCreate : Queue := { head := none, foundIrregularity := false }

/-- `CMRregularityQueueEmpty` (regularity.c, lines 77-82): `head == NULL`. -/
def CMRregularityQueueEmpty (q : Queue) : Bool := q.head.isNone

/-- `CMRregularityQueueAdd` (regularity.c, lines 94-100):
`task->next = queue->head; queue->head = task`. -/
def CMRregularityQueueAdd (q : Queue) (t : DTask) : Queue :=
  { q with head := some (t.setNext q.head) }

/-- `CMRregularityQueueRemove` (regularity.c, lines 84-92):
`task = queue->head; queue->head = task->next; task->next = NULL`.
The C function dereferences the head unconditionally, so its behaviour on
an empty queue is undefined; that case is modelled by `none`. -/
def CMRregularityQueueRemove (q : Queue) : Option (DTask × Queue) :=
  match q.head with
  | none => none
  | some t => some (t.setNext none, { q with head := t.next })

/-- The pumping loop shared verbatim by `CMRregularityTest`
(regularity.c, lines 197-201) and `CMRregularityCompleteDecomposition`
(lines 257-261):
`while (!CMRregularityQueueEmpty(queue) && (params->completeTree || !queue->foundIrregularity))
 { task = CMRregularityQueueRemove(queue); CMRregularityTaskRun(cmr, task, queue); }`.
The stage dispatch acting on the popped task is abstracted as `run`
(it mutates the queue and the world `σ`, i.e. the decomposition tree);
`fuel` bounds the number of iterations, modelling possible divergence. -/
def driverLoop {σ : Type} (run : DTask → Queue → σ → Queue × σ) (completeTree : Bool) :
    Nat → Queue → σ → Queue × σ
  | 0, q, s => (q, s)
  | fuel + 1, q, s =>
    if !CMRregularityQueueEmpty q && (completeTree || !q.foundIrregularity) then
      match CMRregularityQueueRemove q with
      | some (t, q') =>
        let r := run t q' s
        driverLoop run completeTree fuel r.1 r.2
      | none => (q, s)
    else (q, s)

/-- The `type` tag of a decomposition node (`CMR_MATROID_DEC_TYPE_...`). -/
inductive DecType where
  | unknown
  | one_sum
  | two_sum
  | three_sum
  | series_parallel
  | graphic
  | cographic
  | r10
  | planar
  | irregular
deriving DecidableEq, Repr

/-- A decomposition tree node: its `type` tag, its ternary `regularity`
attribute (0 unset, positive regular, negative irregular) and its owned,
ordered children. -/
inductive DecTree where
  | node (type : DecType) (regularity : Int) (children : List DecTree)

/-- The `type` tag of a node. -/
def DecTree.type : DecTree → DecType
  | .node t _ _ => t

/-- The `regularity` attribute of a node. -/
def DecTree.regularity : DecTree → Int
  | .node _ r _ => r

/-- The children of a node. -/
def DecTree.children : DecTree → List DecTree
  | .node _ _ cs => cs

/-- Modelled from the spec (section 4.E): the regularity contributed by a
terminal `type` tag — the terminal recognizers are regular, `irregular`
is irregular, anything else is still undecided. -/
def terminalRegularity : DecType → Int
  | .graphic => 1
  | .cographic => 1
  | .r10 => 1
  | .series_parallel => 1
  | .planar => 1
  | .irregular => -1
  | _ => 0

/-- The terminal `type` tags a leaf may carry once its stage pipeline has
finished (the terminal recognizers of section 4.E plus `irregular`). -/
def leafFinishedType : DecType → Bool
  | .graphic => true
  | .cographic => true
  | .r10 => true
  | .series_parallel => true
  | .planar => true
  | .irregular => true
  | _ => false

/-- The composition `type` tags of internal nodes. -/
def isKSum : DecType → Bool
  | .one_sum => true
  | .two_sum => true
  | .three_sum => true
  | _ => false

/-- Modelled from the spec (section 4.E): the `regularity` verdict of one
node given its (already finalised) children — for a
`one_sum`/`two_sum`/`three_sum` composition, regular iff all children are
regular, irregular if any child is irregular, otherwise unset; a node
without children (or with a non-composition type) gets its terminal
type's verdict. -/
def foldChildrenRegularity (t : DecType) (cs : List DecTree) : Int :=
  if cs.isEmpty then terminalRegularity t
  else if isKSum t then
    if cs.all (fun c => c.regularity == 1) then 1
    else if cs.any (fun c => c.regularity == -1) then -1
    else 0
  else terminalRegularity t

mutual

/-- Modelled from the spec: `CMRmatroiddecSetAttributes` is declared in
`regularity_internal.h` but its definition is not under `src/`; section
4.E specifies it as a post-order walk storing at every node the fold of
its children's verdicts under its composition type. -/
def CMRmatroiddecSetAttributes : DecTree → DecTree
  | .node t _ cs =>
    let cs' := setAttributesList cs
    .node t (foldChildrenRegularity t cs') cs'

/-- Pointwise `CMRmatroiddecSetAttributes` over a child list. -/
def setAttributesList : List DecTree → List DecTree
  | [] => []
  | c :: cs => CMRmatroiddecSetAttributes c :: setAttributesList cs

end

mutual

/-- A fully processed tree: every leaf carries a terminal `type` and every
internal node is a k-sum composition (the post-loop invariant when the
driver drained the queue without early exit). -/
def finishedTree : DecTree → Bool
  | .node t _ [] => leafFinishedType t
  | .node t _ (c :: cs) => isKSum t && finishedForest (c :: cs)

/-- `finishedTree` over a forest. -/
def finishedForest : List DecTree → Bool
  | [] => true
  | c :: cs => finishedTree c && finishedForest cs

end

mutual

/-- Some leaf of the tree has been finalised as `irregular` (the
post-loop invariant when the driver exited early on
`foundIrregularity`). -/
def hasIrregularLeaf : DecTree → Bool
  | .node t _ [] => t == .irregular
  | .node _ _ (c :: cs) => forestHasIrregularLeaf (c :: cs)

/-- `hasIrregularLeaf` over a forest. -/
def forestHasIrregularLeaf : List DecTree → Bool
  | [] => false
  | c :: cs => hasIrregularLeaf c || forestHasIrregularLeaf cs

end

mutual

/-- Every internal node of the tree is a k-sum composition (invariant 1
of the data model: internal nodes carry composition types). -/
def internalsAreKSums : DecTree → Bool
  | .node _ _ [] => true
  | .node t _ (c :: cs) => isKSum t && forestInternalsAreKSums (c :: cs)

/-- `internalsAreKSums` over a forest. -/
def forestInternalsAreKSums : List DecTree → Bool
  | [] => true
  | c :: cs => internalsAreKSums c && forestInternalsAreKSums cs

end

mutual

/-- The structural skeleton of a tree: `type` tags and child shapes, with
every `regularity` attribute erased (set to 0). -/
def stripAttributes : DecTree → DecTree
  | .node t _ cs => .node t 0 (stripAttributesList cs)

/-- `stripAttributes` over a forest. -/
def stripAttributesList : List DecTree → List DecTree
  | [] => []
  | c :: cs => stripAttributes c :: stripAttributesList cs

end

/-- `CMRregularityTest` (regularity.c, lines 170-220): create the root,
push its task, pump the loop, finalise attributes, then store the verdict
through `pisRegular` (the C code stores `root->regularity > 0`) and
either hand the tree out through `pdec` or free it.  The two output
pointers are modelled by `Bool` flags for their non-nullness, and the
outputs by `Option`s (`none` = not requested / freed); the stage runner
and the attribute finaliser are parameters. -/
def CMRregularityTest (run : DTask → Queue → DecTree → Queue × DecTree)
    (setAttr : DecTree → DecTree) (params : RegularParams) (root : DecTree)
    (fuel : Nat) (pisRegular pdec : Bool) : Option Bool × Option DecTree :=
  let queue := CMRregularityQueueAdd CMRregularityQueueCreate (.mk 0 none)
  let result := driverLoop run params.completeTree fuel queue root
  let root' := setAttr result.2
  ( if pisRegular then some (decide (0 < root'.regularity)) else none,
    if pdec then some root' else none )

/-- One ancestor level of a decomposition node: the parent's `type` tag,
its `regularity` attribute and the siblings on either side.  A list of
these contexts models the chain of `parent` back-references. -/
structure Ctx where
  type : DecType
  regularity : Int
  left : List DecTree
  right : List DecTree

/-- Reconstruct the overall root from a node and its ancestor chain —
the model of `while (root->parent != NULL) root = root->parent;`
(regularity.c, lines 230-232). -/
def plug : List Ctx → DecTree → DecTree
  | [], t => t
  | c :: rest, t => plug rest (.node c.type c.regularity (c.left ++ t :: c.right))

/-- The preparation `CMRregularityCompleteDecomposition` applies to the
sub-root before pumping (regularity.c, lines 246-249): free every child
and reset `type` to `CMR_MATROID_DEC_TYPE_UNKNOWN`. -/
def resetForCompletion (dec : DecTree) : DecTree :=
  .node .unknown dec.regularity []

/-- Matrices of the wheel-minor search, as total entry functions (the
C++ code reads `permuted_matrix(i, j)` as `int`). -/
abbrev Mat : Type := Nat → Nat → Int

/-- One entry of the BFS result vector (`bipartite_graph_bfs_node`):
its distance, its predecessor index, and whether it was reached
(`is_reachable()`); unreached nodes keep a negative distance (-1, or -2
for end nodes). -/
structure BfsNode where
  distance : Int
  predecessor : Nat
  reachable : Bool

/-- The index scheme of the bipartite row/column graph
(`bipartite_graph_dimensions`): conversions between node indices and
row/column numbers.  Its concrete layout lives outside the two source
files, so it is kept abstract. -/
structure BipartiteDim where
  rowToIndex : Nat → Nat
  columnToIndex : Nat → Nat
  indexToRow : Nat → Nat
  indexToColumn : Nat → Nat
  indexesToCoordinates : Nat → Nat → Nat × Nat

/-- `swap` on indices: the index permutation performed by
`matroid_permute1`/`matroid_permute2` on positions `a` and `b`. -/
def swapIdx (a b i : Nat) : Nat := if i = a then b else if i = b then a else i

/-- `matroid_permute1 (a, b)`: exchange rows `a` and `b` of the matrix
(and, in lockstep, of the matroid). -/
def matroidPermute1 (a b : Nat) (M : Mat) : Mat := fun i j => M (swapIdx a b i) j

/-- `matroid_permute2 (a, b)`: exchange columns `a` and `b`. -/
def matroidPermute2 (a b : Nat) (M : Mat) : Mat := fun i j => M i (swapIdx a b j)

/-- The pivot guard of the walk-back loop (find_wheel_minor.hpp, lines
225-226): pivot at a node whose BFS distance is even, at least 2, and
satisfies `distance + 2 < (int) nearest_distance`. -/
def pivotCond (nearestDistance : Nat) (d : Int) : Bool :=
  d % 2 == 0 && decide (2 ≤ d) && decide (d + 2 < (nearestDistance : Int))

/-- The mutable state of the walk-back loop: the pivots performed so far
(as matrix coordinates, in execution order) and the recorded
`w3_one_row` / `w3_path_column`. -/
structure WalkState where
  pivots : List (Nat × Nat)
  w3OneRow : Nat
  w3PathColumn : Nat

/-- The walk-back loop of find_wheel_minor.hpp (lines 221-248): starting
from `last = nearest_end`, `current = predecessor(last)`, walk the BFS
path back until a fixed point of the predecessor map; at each node,
pivot when `pivotCond` holds on its distance (recording the coordinates
`indexes_to_coordinates(current, last)`), record `w3_path_column` at the
distance-1 node and `w3_one_row` at the distance-0 node.  `fuel` bounds
the iteration count. -/
def walkLoop (bfs : Nat → BfsNode) (dim : BipartiteDim) (nearestDistance : Nat) :
    Nat → Nat → Nat → WalkState → WalkState
  | 0, _, _, st => st
  | fuel + 1, last, current, st =>
    if last == current then st
    else
      let coords := dim.indexesToCoordinates current last
      let st1 :=
        if pivotCond nearestDistance (bfs current).distance then
          { st with pivots := st.pivots ++ [coords] }
        else st
      let st2 :=
        if (bfs current).distance == 1 then
          { st1 with w3PathColumn := dim.indexToColumn current }
        else if (bfs current).distance == 0 then
          { st1 with w3OneRow := dim.indexToRow current }
        else st1
      walkLoop bfs dim nearestDistance fuel current (bfs current).predecessor st2

/-- The BFS path visited by the walk-back loop, as the list of
(`current`, `last`) pairs in visit order. -/
def walkEdges (pred : Nat → Nat) : Nat → Nat → Nat → List (Nat × Nat)
  | 0, _, _ => []
  | fuel + 1, last, current =>
    if last == current then []
    else (current, last) :: walkEdges pred fuel current (pred current)

/-- Lines 267-271 of find_wheel_minor.hpp:
`if (w3_zero_row > w3_one_row) { matroid_permute1(one, zero); swap(one, zero); }` —
returns the (possibly) permuted matrix and the updated
(`w3_zero_row`, `w3_one_row`) pair. -/
def condSwapRowsA (zr onr : Nat) (M : Mat) : Mat × Nat × Nat :=
  if zr > onr then (matroidPermute1 onr zr M, onr, zr) else (M, zr, onr)

/-- Lines 272-276: `if (w3_one_row > w3_path_row) { matroid_permute1(path, one);
swap(path, one); }` — returns the matrix and the updated
(`w3_one_row`, `w3_path_row`) pair. -/
def condSwapRowsB (onr1 pr : Nat) (M : Mat) : Mat × Nat × Nat :=
  if onr1 > pr then (matroidPermute1 pr onr1 M, pr, onr1) else (M, onr1, pr)

/-- Lines 278-282, the column analogue of `condSwapRowsA`. -/
def condSwapColsA (zc onc : Nat) (M : Mat) : Mat × Nat × Nat :=
  if zc > onc then (matroidPermute2 onc zc M, onc, zc) else (M, zc, onc)

/-- Lines 283-287, the column analogue of `condSwapRowsB`. -/
def condSwapColsB (onc1 pc : Nat) (M : Mat) : Mat × Nat × Nat :=
  if onc1 > pc then (matroidPermute2 pc onc1 M, pc, onc1) else (M, onc1, pc)

/-- The final permutation phase of find_wheel_minor.hpp (lines 267-295):
conditionally swap the three distinguished rows into increasing order,
likewise the columns, then move them to positions 0, 1, 2 via
`matroid_permute1(0, w3_zero_row)`, `(1, w3_one_row)`, `(2, w3_path_row)`
and the column analogues (each conditional swap also swaps the index
variables, exactly as the `std::swap` calls do). -/
def moveW3ToTopLeft (zr onr pr zc onc pc : Nat) (M : Mat) : Mat :=
  let r1 := condSwapRowsA zr onr M
  let r2 := condSwapRowsB r1.2.2 pr r1.1
  let c1 := condSwapColsA zc onc r2.1
  let c2 := condSwapColsB c1.2.2 pc c1.1
  let M5 := matroidPermute1 2 r2.2.2 (matroidPermute1 1 r2.2.1 (matroidPermute1 0 r1.2.1 c2.1))
  matroidPermute2 2 c2.2.2 (matroidPermute2 1 c2.2.1 (matroidPermute2 0 c1.2.1 M5))

/-- The value stored into `reachable[]` for a row node (find_wheel_minor.hpp,
line 161): reachable rows get 2 (positive distance) or 1 (distance 0),
unreachable rows get 0. -/
def rowReachValue (n : BfsNode) : Nat :=
  if n.reachable then (if 0 < n.distance then 2 else 1) else 0

/-- The value stored into `reachable[]` for a column node
(find_wheel_minor.hpp, line 177): reachable columns get 2, unreachable
end nodes (distance -2) get 1, other unreachable columns get 0. -/
def colReachValue (n : BfsNode) : Nat :=
  if n.reachable then 2 else (if n.distance == -2 then 1 else 0)

/-- The `separation` result type: default-constructed (empty — the wheel
minor was found), a 1-separation, or a 2-separation with a witness
position. -/
inductive Separation where
  | empty
  | onesep (split : Nat × Nat)
  | twosep (split : Nat × Nat) (witness : Nat × Nat)
deriving DecidableEq, Repr

/-- The reachability value of the row visible at position `i` of the
permuted matrix. -/
def rowValueAt (bfs : Nat → BfsNode) (dim : BipartiteDim) (i : Nat) : Nat :=
  rowReachValue (bfs (dim.rowToIndex i))

/-- The reachability value of the column visible at position `i`. -/
def colValueAt (bfs : Nat → BfsNode) (dim : BipartiteDim) (i : Nat) : Nat :=
  colReachValue (bfs (dim.columnToIndex i))

/-- The fill loop of the no-path branch (find_wheel_minor.hpp, lines
157-165 and 173-181): write `vals i` into the array slot of the
underlying index shown at position `i` (the C code writes
`reachable[perm(i)] = value`). -/
def buildReachAux (vals : Nat → Nat) : List Nat → Nat → (Nat → Nat) → (Nat → Nat)
  | [], _, arr => arr
  | u :: rest, i, arr => buildReachAux vals rest (i + 1) (Function.update arr u (vals i))

/-- The `reachable[]` array of the no-path branch for rows. -/
def rowReachArr (bfs : Nat → BfsNode) (dim : BipartiteDim) (perm1 : List Nat) : Nat → Nat :=
  buildReachAux (rowValueAt bfs dim) perm1 0 (fun _ => 0)

/-- The `reachable[]` array of the no-path branch for columns. -/
def colReachArr (bfs : Nat → BfsNode) (dim : BipartiteDim) (perm2 : List Nat) : Nat → Nat :=
  buildReachAux (colValueAt bfs dim) perm2 0 (fun _ => 0)

/-- `sort(permuted_matrix.perm1(), vector_less(reachable, std::less))`
(find_wheel_minor.hpp, line 168): sort the row permutation ascending by
the reachability value of each underlying row. -/
def noPathRowsSorted (bfs : Nat → BfsNode) (dim : BipartiteDim) (perm1 : List Nat) :
    List Nat :=
  perm1.mergeSort (fun a b => decide (rowReachArr bfs dim perm1 a ≤ rowReachArr bfs dim perm1 b))

/-- `sort(permuted_matrix.perm2(), less)` (find_wheel_minor.hpp, line 183). -/
def noPathColsSorted (bfs : Nat → BfsNode) (dim : BipartiteDim) (perm2 : List Nat) :
    List Nat :=
  perm2.mergeSort (fun a b => decide (colReachArr bfs dim perm2 a ≤ colReachArr bfs dim perm2 b))

/-- `permuted_matroid.perm1() = permuted_matrix.perm1()`
(find_wheel_minor.hpp, line 169): the matroid receives the same row
permutation as the matrix. -/
def noPathMatroidRowPerm (bfs : Nat → BfsNode) (dim : BipartiteDim) (perm1 : List Nat) :
    List Nat :=
  noPathRowsSorted bfs dim perm1

/-- `permuted_matroid.perm2() = permuted_matrix.perm2()`
(find_wheel_minor.hpp, line 184). -/
def noPathMatroidColPerm (bfs : Nat → BfsNode) (dim : BipartiteDim) (perm2 : List Nat) :
    List Nat :=
  noPathColsSorted bfs dim perm2

/-- `split.first` of the no-path branch: the number of visible rows whose
BFS node got value 0 (accumulated by the fill loop, lines 163-164). -/
def noPathSplitFirst (bfs : Nat → BfsNode) (dim : BipartiteDim) (n1 : Nat) : Nat :=
  (List.range n1).countP (fun i => rowValueAt bfs dim i = 0)

/-- `split.second` of the no-path branch: the number of visible columns
whose BFS node got value < 2 (lines 179-180). -/
def noPathSplitSecond (bfs : Nat → BfsNode) (dim : BipartiteDim) (n2 : Nat) : Nat :=
  (List.range n2).countP (fun i => colValueAt bfs dim i < 2)

/-- `return separation(split, std::make_pair(split.first, split.second - 1))`
(find_wheel_minor.hpp, line 186). -/
def noPathSeparation (bfs : Nat → BfsNode) (dim : BipartiteDim) (n1 n2 : Nat) : Separation :=
  let f := noPathSplitFirst bfs dim n1
  let s := noPathSplitSecond bfs dim n2
  .twosep (f, s) (f, s - 1)

/-- `is_all_ones` over a row segment `[0, w)` (the block columns). -/
def allOnesRow (M : Mat) (r w : Nat) : Bool :=
  (List.range w).all (fun j => M r j == 1)

/-- `matrix_count_property_row_series(matrix, first, beyond, 0, w,
is_all_ones())`: the number of consecutive rows from `first` (with
`fuel = beyond - first`) whose block segment is all ones, stopping at the
first failure. -/
def matrixCountPropertyRowSeries (M : Mat) (w : Nat) : Nat → Nat → Nat
  | _, 0 => 0
  | first, fuel + 1 =>
    if allOnesRow M first w then matrixCountPropertyRowSeries M w (first + 1) fuel + 1
    else 0

/-- The zero-column scan of find_wheel_minor.hpp (lines 214-219):
`while (permuted_matrix(w3_path_row, w3_zero_column) != 0) w3_zero_column++`,
started at `j`; `fuel` bounds the scan, `none` modelling a runaway loop. -/
def findFirstZeroCol (M : Mat) (r : Nat) : Nat → Nat → Option Nat
  | _, 0 => none
  | j, fuel + 1 => if M r j == 0 then some j else findFirstZeroCol M r (j + 1) fuel

/-- The zero-row scan of find_wheel_minor.hpp (lines 250-255). -/
def findFirstZeroRow (M : Mat) (c : Nat) : Nat → Nat → Option Nat
  | _, 0 => none
  | i, fuel + 1 => if M i c == 0 then some i else findFirstZeroRow M c (i + 1) fuel

/-- The entry assertion of `find_wheel_minor` (find_wheel_minor.hpp,
line 51): `permuted_matrix.size1() >= 3 && permuted_matroid.size2() >= 3`. -/
def findWheelMinorEntryAssert (size1 size2 : Nat) : Prop :=
  3 ≤ size1 ∧ 3 ≤ size2

/-- A concrete BFS result describing one augmenting path
6 <- 5 <- 4 <- 3 (distances 3, 2, 1, 0), used to evaluate the walk loop. -/
def bfsFixture : Nat → BfsNode := fun i =>
  if i = 6 then { distance := 3, predecessor := 5, reachable := true }
  else if i = 5 then { distance := 2, predecessor := 4, reachable := true }
  else if i = 4 then { distance := 1, predecessor := 3, reachable := true }
  else if i = 3 then { distance := 0, predecessor := 3, reachable := true }
  else { distance := -1, predecessor := 0, reachable := false }

/-- An identity index scheme, for concrete evaluations. -/
def dimFixture : BipartiteDim :=
  { rowToIndex := id, columnToIndex := id, indexToRow := id, indexToColumn := id,
    indexesToCoordinates := fun a b => (a, b) }

/-- An all-ones concrete matrix. -/
def onesMat : Mat := fun _ _ => 1

/-- The W3 wheel representation itself as a concrete matrix: all ones
except the entries (0,2) and (2,0). -/
def w3Mat : Mat := fun i j => if (i = 0 ∧ j = 2) ∨ (i = 2 ∧ j = 0) then 0 else 1

/-- A concrete binary matrix whose all-ones block is rows {0,1} times
columns {0,1} and whose row 2 starts with a zero. -/
def scanFixtureM : Mat := fun i j => if i < 2 then 1 else if j = 1 then 1 else 0

/-- A concrete matrix whose row 0 is all zeros (standing for the
post-pivot matrix of the zero-row scan). -/
def scanFixtureMp : Mat := fun i _ => if i = 0 then 0 else 1

/-- `CMRregularityCompleteDecomposition` (regularity.c, lines 222-272):
locate the overall root by following parent links, free the sub-root's
children and reset its `type`, seed a fresh queue with one task for the
sub-root, pump the identical driver loop, then run the attribute
finaliser on the overall root.  Stages only touch the task's own subtree
(the stage contracts scope side effects to the task's node and the
queue), so the world threaded through the loop is the sub-tree. -/
def CMRregularityCompleteDecomposition (run : DTask → Queue → DecTree → Queue × DecTree)
    (ancestors : List Ctx) (dec : DecTree) (params : RegularParams) (fuel : Nat) : DecTree :=
  let dec0 := resetForCompletion dec
  let queue := CMRregularityQueueAdd CMRregularityQueueCreate (.mk 0 none)
  let result := driverLoop run params.completeTree fuel queue dec0
  CMRmatroiddecSetAttributes (plug ancestors result.2)

end CMR

namespace CMR

/-- C1: for every popped task, the dispatcher runs exactly one stage, the
one selected by the first matching rule of the ordered decision table
(rules 1-8 guarded as in the specification's table, rule 9 being the
3-separation search as the default). -/
theorem taskRun_is_first_matching_rule (params : RegularParams) (dec : DecNodeAttrs) :
    CMRregularityTaskRun params dec
      = firstMatching .nestedMinorSequenceSearchThreeSeparation (dispatchTable params dec) := by
  rfl

/-- C5: the task queue is LIFO.  `CMRregularityQueueAdd` makes the pushed
task the new head (relinking its `next` to the old head), so the queue is
non-empty afterwards; `CMRregularityQueueRemove` on a non-empty queue
removes and returns the head with its `next` link cleared; a pop right
after a push returns the task just pushed; and a pop has a defined result
exactly on a non-empty queue (non-emptiness is its precondition). -/
theorem queue_lifo (q : Queue) (t h : DTask) (hne : q.head = some h) :
    (CMRregularityQueueAdd q t).head = some (t.setNext q.head)
  ∧ CMRregularityQueueEmpty (CMRregularityQueueAdd q t) = false
  ∧ CMRregularityQueueRemove q = some (h.setNext none, { q with head := h.next })
  ∧ CMRregularityQueueRemove (CMRregularityQueueAdd q t) = some (t.setNext none, q)
  ∧ (∀ q' : Queue, CMRregularityQueueRemove q' = none ↔ CMRregularityQueueEmpty q' = true) := by
  refine ⟨rfl, rfl, ?_, ?_, ?_⟩
  · simp [CMRregularityQueueRemove, hne]
  · simp [CMRregularityQueueRemove, CMRregularityQueueAdd, DTask.setNext, DTask.next, DTask.dec]
  · intro q'
    cases hq : q'.head with
    | none => simp [CMRregularityQueueRemove, CMRregularityQueueEmpty, hq]
    | some t' => simp [CMRregularityQueueRemove, CMRregularityQueueEmpty, hq]

/-- Witness for `queue_lifo` at a concrete one-task queue. -/
theorem queue_lifo_witness :
    let h : DTask := .mk 7 none
    let q : Queue := { head := some h, foundIrregularity := false }
    let t : DTask := .mk 5 none
    (CMRregularityQueueAdd q t).head = some (t.setNext q.head)
  ∧ CMRregularityQueueEmpty (CMRregularityQueueAdd q t) = false
  ∧ CMRregularityQueueRemove q = some (h.setNext none, { q with head := h.next })
  ∧ CMRregularityQueueRemove (CMRregularityQueueAdd q t) = some (t.setNext none, q)
  ∧ (∀ q' : Queue, CMRregularityQueueRemove q' = none ↔ CMRregularityQueueEmpty q' = true) :=
  queue_lifo { head := some (.mk 7 none), foundIrregularity := false } (.mk 5 none)
    (.mk 7 none) rfl

/-- C2: both driver entry points pump the queue exactly while it is
non-empty and (`completeTree` or the `foundIrregularity` flag is unset)
— `CMRregularityTest` and `CMRregularityCompleteDecomposition` contain
the identical loop embedded as `driverLoop`.  Part 1: if the queue is
empty, or the flag is set with `completeTree` false, the loop exits
immediately at the queue check.  Part 2: otherwise one iteration pops the
head task and runs its stage to completion before the condition is
re-examined.  Part 3: consequently a stage that sets the flag (with
`completeTree` false) is never interrupted — the loop exits at the next
queue check with the stage's effects fully applied. -/
theorem driver_loop_pumping {σ : Type} (run : DTask → Queue → σ → Queue × σ)
    (ct : Bool) (fuel : Nat) (q q' : Queue) (s : σ) (t : DTask) :
    ((CMRregularityQueueEmpty q = true ∨ (ct = false ∧ q.foundIrregularity = true)) →
      driverLoop run ct (fuel + 1) q s = (q, s))
  ∧ (CMRregularityQueueEmpty q = false → (ct = true ∨ q.foundIrregularity = false) →
      CMRregularityQueueRemove q = some (t, q') →
      driverLoop run ct (fuel + 1) q s
        = driverLoop run ct fuel (run t q' s).1 (run t q' s).2)
  ∧ (CMRregularityQueueEmpty q = false → (ct = true ∨ q.foundIrregularity = false) →
      CMRregularityQueueRemove q = some (t, q') →
      ct = false → ((run t q' s).1).foundIrregularity = true →
      driverLoop run ct (fuel + 2) q s = run t q' s) := by
  refine ⟨?_, ?_, ?_⟩
  · rintro (hemp | ⟨hct, hfound⟩)
    · simp [driverLoop, hemp]
    · simp [driverLoop, hct, hfound]
  · intro hemp hgo hpop
    have hcond : (!CMRregularityQueueEmpty q && (ct || !q.foundIrregularity)) = true := by
      rcases hgo with hct | hfound
      · simp [hemp, hct]
      · simp [hemp, hfound]
    simp only [driverLoop, hcond, if_true, hpop]
  · intro hemp hgo hpop hct hfound
    have hcond : (!CMRregularityQueueEmpty q && (ct || !q.foundIrregularity)) = true := by
      rcases hgo with hct' | hfound'
      · simp [hemp, hct']
      · simp [hemp, hfound']
    simp only [driverLoop, hcond, if_true, hpop]
    have hdone : (!CMRregularityQueueEmpty (run t q' s).1
        && (ct || !((run t q' s).1).foundIrregularity)) = false := by
      simp [hct, hfound]
    simp only [driverLoop, hdone, Bool.false_eq_true, if_false]

/-- Witness for `driver_loop_pumping`: a one-task queue whose stage sets
the `foundIrregularity` flag; the loop pops it, runs it to completion and
exits at the next check. -/
theorem driver_loop_pumping_witness :
    let run : DTask → Queue → Nat → Queue × Nat :=
      fun _ q n => ({ q with foundIrregularity := true }, n + 1)
    let q : Queue := { head := some (.mk 0 none), foundIrregularity := false }
    driverLoop run false 2 q 0 = ({ head := none, foundIrregularity := true }, 1) := by
  intro run q
  have h := (driver_loop_pumping run false 0 q
    { head := none, foundIrregularity := false } 0 (.mk 0 none)).2.2
    rfl (Or.inr rfl) rfl rfl rfl
  exact h

theorem terminalRegularity_decided (ty : DecType) (h : leafFinishedType ty = true) :
    terminalRegularity ty = 1 ∨ terminalRegularity ty = -1 := by
  cases ty <;> simp_all [leafFinishedType, terminalRegularity]

theorem foldChildren_decided (ty : DecType) (l : List DecTree) (hty : isKSum ty = true)
    (hne : l.isEmpty = false) (hall : ∀ c ∈ l, c.regularity = 1 ∨ c.regularity = -1) :
    foldChildrenRegularity ty l = 1 ∨ foldChildrenRegularity ty l = -1 := by
  unfold foldChildrenRegularity
  rw [hne, if_neg (by simp), hty, if_pos rfl]
  by_cases h1 : (l.all fun x => x.regularity == 1) = true
  · rw [if_pos h1]
    exact Or.inl rfl
  · rw [if_neg h1]
    have h1' : ¬ ∀ x ∈ l, x.regularity == 1 := by
      intro hc
      exact h1 (List.all_eq_true.mpr hc)
    push_neg at h1'
    obtain ⟨x, hx, hxne⟩ := h1'
    have hxm : x.regularity = -1 := by
      rcases hall x hx with h' | h'
      · exact absurd (by simp [h']) hxne
      · exact h'
    have h2 : (l.any fun x => x.regularity == -1) = true :=
      List.any_eq_true.mpr ⟨x, hx, by simp [hxm]⟩
    rw [if_pos h2]
    exact Or.inr rfl

theorem foldChildren_irregular (ty : DecType) (l : List DecTree) (hty : isKSum ty = true)
    (hne : l.isEmpty = false) (hex : ∃ x ∈ l, x.regularity = -1) :
    foldChildrenRegularity ty l = -1 := by
  unfold foldChildrenRegularity
  rw [hne, if_neg (by simp), hty, if_pos rfl]
  obtain ⟨x, hx, hx'⟩ := hex
  have h1 : ¬ (l.all fun x => x.regularity == 1) = true := by
    intro hc
    have := List.all_eq_true.mp hc x hx
    simp [hx'] at this
  rw [if_neg h1]
  have h2 : (l.any fun x => x.regularity == -1) = true :=
    List.any_eq_true.mpr ⟨x, hx, by simp [hx']⟩
  rw [if_pos h2]

mutual

theorem setAttributes_finished_decided : ∀ t : DecTree, finishedTree t = true →
    (CMRmatroiddecSetAttributes t).regularity = 1
      ∨ (CMRmatroiddecSetAttributes t).regularity = -1
  | .node ty r [], h => by
    have hty : leafFinishedType ty = true := by
      simpa [finishedTree] using h
    simpa [CMRmatroiddecSetAttributes, setAttributesList, foldChildrenRegularity,
      DecTree.regularity] using terminalRegularity_decided ty hty
  | .node ty r (c :: cs), h => by
    have hsplit : isKSum ty = true ∧ finishedForest (c :: cs) = true := by
      simpa only [finishedTree, Bool.and_eq_true] using h
    have hall := setAttributesList_finished_decided (c :: cs) hsplit.2
    have hne : (setAttributesList (c :: cs)).isEmpty = false := by
      simp [setAttributesList]
    have hfold := foldChildren_decided ty (setAttributesList (c :: cs)) hsplit.1 hne hall
    simpa only [CMRmatroiddecSetAttributes, DecTree.regularity] using hfold

theorem setAttributesList_finished_decided : ∀ cs : List DecTree, finishedForest cs = true →
    ∀ c ∈ setAttributesList cs, c.regularity = 1 ∨ c.regularity = -1
  | [], _ => by simp [setAttributesList]
  | c :: cs, h => by
    have hsplit : finishedTree c = true ∧ finishedForest cs = true := by
      simpa only [finishedForest, Bool.and_eq_true] using h
    intro x hx
    simp only [setAttributesList, List.mem_cons] at hx
    rcases hx with rfl | hx
    · exact setAttributes_finished_decided c hsplit.1
    · exact setAttributesList_finished_decided cs hsplit.2 x hx

end

mutual

theorem setAttributes_irregular_leaf : ∀ t : DecTree, internalsAreKSums t = true →
    hasIrregularLeaf t = true → (CMRmatroiddecSetAttributes t).regularity = -1
  | .node ty r [], _, h => by
    have hty : ty = .irregular := by
      simpa only [hasIrregularLeaf, beq_iff_eq] using h
    subst hty
    simp [CMRmatroiddecSetAttributes, setAttributesList, foldChildrenRegularity,
      terminalRegularity, DecTree.regularity]
  | .node ty r (c :: cs), hk, h => by
    have hsplit : isKSum ty = true ∧ forestInternalsAreKSums (c :: cs) = true := by
      simpa only [internalsAreKSums, Bool.and_eq_true] using hk
    have hfl : forestHasIrregularLeaf (c :: cs) = true := by
      simpa [hasIrregularLeaf] using h
    have hex := setAttributesList_irregular_leaf (c :: cs) hsplit.2 hfl
    have hne : (setAttributesList (c :: cs)).isEmpty = false := by
      simp [setAttributesList]
    have hfold := foldChildren_irregular ty (setAttributesList (c :: cs)) hsplit.1 hne hex
    simpa only [CMRmatroiddecSetAttributes, DecTree.regularity] using hfold

theorem setAttributesList_irregular_leaf : ∀ cs : List DecTree,
    forestInternalsAreKSums cs = true → forestHasIrregularLeaf cs = true →
    ∃ x ∈ setAttributesList cs, x.regularity = -1
  | c :: cs, hk, h => by
    have hsplit : internalsAreKSums c = true ∧ forestInternalsAreKSums cs = true := by
      simpa only [forestInternalsAreKSums, Bool.and_eq_true] using hk
    have hor : hasIrregularLeaf c = true ∨ forestHasIrregularLeaf cs = true := by
      simpa only [forestHasIrregularLeaf, Bool.or_eq_true] using h
    rcases hor with h' | h'
    · exact ⟨CMRmatroiddecSetAttributes c, by simp [setAttributesList],
        setAttributes_irregular_leaf c hsplit.1 h'⟩
    · obtain ⟨x, hx, hx'⟩ := setAttributesList_irregular_leaf cs hsplit.2 h'
      exact ⟨x, by simp [setAttributesList, hx], hx'⟩

end

/-- C4: whenever the driver entry points return OK, the attribute
finaliser leaves the root's `regularity` tag decided — either regular (1)
or irregular (-1), never unset (0) — both when the queue was drained
(every leaf then carries a terminal type) and when the loop exited early
on `foundIrregularity` (some leaf was finalised as `irregular`); this is
exactly what `assert(root->regularity != 0)` checks after
`CMRmatroiddecSetAttributes` in both `CMRregularityTest` and
`CMRregularityCompleteDecomposition`. -/
theorem finalised_root_regularity_decided (t : DecTree)
    (hk : internalsAreKSums t = true)
    (h : finishedTree t = true ∨ hasIrregularLeaf t = true) :
    (CMRmatroiddecSetAttributes t).regularity = 1
      ∨ (CMRmatroiddecSetAttributes t).regularity = -1 := by
  rcases h with h | h
  · exact setAttributes_finished_decided t h
  · exact Or.inr (setAttributes_irregular_leaf t hk h)

/-- Witness for `finalised_root_regularity_decided`: a drained one-sum
root with a graphic leaf and an R10 leaf is finalised as regular. -/
theorem finalised_root_regularity_decided_witness :
    let t : DecTree := .node .one_sum 0 [.node .graphic 0 [], .node .r10 0 []]
    internalsAreKSums t = true ∧ finishedTree t = true ∧
      ((CMRmatroiddecSetAttributes t).regularity = 1
        ∨ (CMRmatroiddecSetAttributes t).regularity = -1) :=
  ⟨by decide, by decide,
    finalised_root_regularity_decided
      (DecTree.node DecType.one_sum 0
        [DecTree.node DecType.graphic 0 [], DecTree.node DecType.r10 0 []])
      (by decide) (Or.inl (by decide))⟩

/-- C3: when `CMRregularityTest` returns OK, the value stored through
`pisRegular` (when that output is requested) is true exactly when the
root's `regularity` after finalisation is strictly positive (regular),
and the decomposition tree is transferred through `pdec` when requested,
otherwise freed (no tree escapes). -/
theorem test_output_contract (run : DTask → Queue → DecTree → Queue × DecTree)
    (setAttr : DecTree → DecTree) (params : RegularParams) (root : DecTree)
    (fuel : Nat) (pisRegular pdec : Bool) :
    (∀ b : Bool, (CMRregularityTest run setAttr params root fuel pisRegular pdec).1 = some b →
      (b = true ↔ 0 < (setAttr (driverLoop run params.completeTree fuel
        (CMRregularityQueueAdd CMRregularityQueueCreate (.mk 0 none)) root).2).regularity))
  ∧ (pisRegular = true →
      ((CMRregularityTest run setAttr params root fuel pisRegular pdec).1).isSome = true)
  ∧ (pisRegular = false →
      (CMRregularityTest run setAttr params root fuel pisRegular pdec).1 = none)
  ∧ (pdec = true →
      (CMRregularityTest run setAttr params root fuel pisRegular pdec).2
        = some (setAttr (driverLoop run params.completeTree fuel
            (CMRregularityQueueAdd CMRregularityQueueCreate (.mk 0 none)) root).2))
  ∧ (pdec = false →
      (CMRregularityTest run setAttr params root fuel pisRegular pdec).2 = none) := by
  refine ⟨?_, ?_, ?_, ?_, ?_⟩
  · intro b hb
    cases hp : pisRegular with
    | false => simp [CMRregularityTest, hp] at hb
    | true =>
      simp only [CMRregularityTest, hp, if_true, Option.some.injEq] at hb
      subst hb
      simp
  · intro hp
    simp [CMRregularityTest, hp]
  · intro hp
    simp [CMRregularityTest, hp]
  · intro hp
    simp [CMRregularityTest, hp]
  · intro hp
    simp [CMRregularityTest, hp]

/-- Witness for `test_output_contract`: with a trivial stage runner, zero
fuel, the identity finaliser and a regular root, both outputs are
produced and the stored verdict is true. -/
theorem test_output_contract_witness :
    ((CMRregularityTest (fun _ q s => (q, s)) id
        { directGraphicness := false, completeTree := true }
        (DecTree.node DecType.graphic 5 []) 0 true true).2
      = some (id (driverLoop (fun _ q s => (q, s)) true 0
          (CMRregularityQueueAdd CMRregularityQueueCreate (.mk 0 none))
          (DecTree.node DecType.graphic 5 [])).2))
  ∧ ((true = true) ↔ 0 < (id (driverLoop (fun _ q s => (q, s)) true 0
      (CMRregularityQueueAdd CMRregularityQueueCreate (.mk 0 none))
      (DecTree.node DecType.graphic 5 [])).2).regularity) :=
  ⟨(test_output_contract (fun _ q s => (q, s)) id
      { directGraphicness := false, completeTree := true }
      (DecTree.node DecType.graphic 5 []) 0 true true).2.2.2.1 rfl,
   (test_output_contract (fun _ q s => (q, s)) id
      { directGraphicness := false, completeTree := true }
      (DecTree.node DecType.graphic 5 []) 0 true true).1 true (by decide)⟩

mutual

theorem strip_setAttributes : ∀ t : DecTree,
    stripAttributes (CMRmatroiddecSetAttributes t) = stripAttributes t
  | .node ty r cs => by
    simp only [CMRmatroiddecSetAttributes, stripAttributes]
    rw [strip_setAttributesList cs]

theorem strip_setAttributesList : ∀ cs : List DecTree,
    stripAttributesList (setAttributesList cs) = stripAttributesList cs
  | [] => rfl
  | c :: cs => by
    simp only [setAttributesList, stripAttributesList]
    rw [strip_setAttributes c, strip_setAttributesList cs]

end

/-- C6: `CMRregularityCompleteDecomposition` first frees every child of
the sub-root and resets its `type` to unknown, seeds a fresh queue with
exactly one task for the sub-root, pumps the loop on the sub-tree only,
and finally runs the attribute finaliser on the overall root obtained by
following the parent links — so attributes are recomputed and propagated
upward while the ancestors' structure (everything but the `regularity`
attributes) is exactly the original contexts around the pumped
sub-tree. -/
theorem complete_decomposition_contract (run : DTask → Queue → DecTree → Queue × DecTree)
    (ancestors : List Ctx) (dec : DecTree) (params : RegularParams) (fuel : Nat) :
    (resetForCompletion dec).children = []
  ∧ (resetForCompletion dec).type = .unknown
  ∧ CMRregularityQueueAdd CMRregularityQueueCreate (.mk 0 none)
      = { head := some (.mk 0 none), foundIrregularity := false }
  ∧ CMRregularityCompleteDecomposition run ancestors dec params fuel
      = CMRmatroiddecSetAttributes (plug ancestors
          (driverLoop run params.completeTree fuel
            (CMRregularityQueueAdd CMRregularityQueueCreate (.mk 0 none))
            (resetForCompletion dec)).2)
  ∧ stripAttributes (CMRregularityCompleteDecomposition run ancestors dec params fuel)
      = stripAttributes (plug ancestors
          (driverLoop run params.completeTree fuel
            (CMRregularityQueueAdd CMRregularityQueueCreate (.mk 0 none))
            (resetForCompletion dec)).2) :=
  ⟨rfl, rfl, rfl, rfl, strip_setAttributes _⟩

theorem walkLoop_pivots (bfs : Nat → BfsNode) (dim : BipartiteDim) (nd : Nat) :
    ∀ (fuel last current : Nat) (st : WalkState),
      (walkLoop bfs dim nd fuel last current st).pivots
        = st.pivots
          ++ ((walkEdges (fun i => (bfs i).predecessor) fuel last current).filter
              (fun e => pivotCond nd (bfs e.1).distance)).map
              (fun e => dim.indexesToCoordinates e.1 e.2) := by
  intro fuel
  induction fuel with
  | zero =>
    intro last current st
    simp [walkLoop, walkEdges]
  | succ n ih =>
    intro last current st
    by_cases h : (last == current) = true
    · simp [walkLoop, walkEdges, h]
    · simp only [walkLoop, walkEdges, if_neg h]
      rw [ih]
      by_cases hp : pivotCond nd (bfs current).distance = true
      · simp only [hp, if_true, List.filter_cons, decide_eq_true_eq, List.map_cons]
        split_ifs <;> simp [List.append_assoc]
      · simp only [hp, List.filter_cons]
        split_ifs <;> simp_all

theorem condSwapRowsA_spec (zr onr : Nat) (M : Mat) (h : zr ≠ onr) :
    ((condSwapRowsA zr onr M).2.1 < (condSwapRowsA zr onr M).2.2)
  ∧ ((condSwapRowsA zr onr M).2.1 = zr ∨ (condSwapRowsA zr onr M).2.1 = onr)
  ∧ ((condSwapRowsA zr onr M).2.2 = zr ∨ (condSwapRowsA zr onr M).2.2 = onr)
  ∧ (∀ j, (condSwapRowsA zr onr M).1 (condSwapRowsA zr onr M).2.1 j = M zr j)
  ∧ (∀ j, (condSwapRowsA zr onr M).1 (condSwapRowsA zr onr M).2.2 j = M onr j)
  ∧ (∀ i j, i ≠ zr → i ≠ onr → (condSwapRowsA zr onr M).1 i j = M i j) := by
  unfold condSwapRowsA
  by_cases hr : zr > onr
  · simp only [if_pos hr]
    refine ⟨hr, by simp, by simp, ?_, ?_, ?_⟩
    · intro j
      show M (swapIdx onr zr onr) j = M zr j
      rw [show swapIdx onr zr onr = zr by unfold swapIdx; split_ifs <;> first | omega | simp_all]
    · intro j
      show M (swapIdx onr zr zr) j = M onr j
      rw [show swapIdx onr zr zr = onr by unfold swapIdx; split_ifs <;> first | omega | simp_all]
    · intro i j h1 h2
      show M (swapIdx onr zr i) j = M i j
      rw [show swapIdx onr zr i = i by unfold swapIdx; split_ifs <;> first | omega | simp_all]
  · simp only [if_neg hr]
    refine ⟨Nat.lt_of_le_of_ne (Nat.le_of_not_lt hr) h, ?_, ?_, ?_, ?_, ?_⟩ <;> simp

theorem condSwapColsA_spec (zc onc : Nat) (M : Mat) (h : zc ≠ onc) :
    ((condSwapColsA zc onc M).2.1 < (condSwapColsA zc onc M).2.2)
  ∧ ((condSwapColsA zc onc M).2.1 = zc ∨ (condSwapColsA zc onc M).2.1 = onc)
  ∧ ((condSwapColsA zc onc M).2.2 = zc ∨ (condSwapColsA zc onc M).2.2 = onc)
  ∧ (∀ i, (condSwapColsA zc onc M).1 i (condSwapColsA zc onc M).2.1 = M i zc)
  ∧ (∀ i, (condSwapColsA zc onc M).1 i (condSwapColsA zc onc M).2.2 = M i onc)
  ∧ (∀ i j, j ≠ zc → j ≠ onc → (condSwapColsA zc onc M).1 i j = M i j) := by
  unfold condSwapColsA
  by_cases hc : zc > onc
  · simp only [if_pos hc]
    refine ⟨hc, by simp, by simp, ?_, ?_, ?_⟩
    · intro i
      show M i (swapIdx onc zc onc) = M i zc
      rw [show swapIdx onc zc onc = zc by unfold swapIdx; split_ifs <;> first | omega | simp_all]
    · intro i
      show M i (swapIdx onc zc zc) = M i onc
      rw [show swapIdx onc zc zc = onc by unfold swapIdx; split_ifs <;> first | omega | simp_all]
    · intro i j h1 h2
      show M i (swapIdx onc zc j) = M i j
      rw [show swapIdx onc zc j = j by unfold swapIdx; split_ifs <;> first | omega | simp_all]
  · simp only [if_neg hc]
    refine ⟨Nat.lt_of_le_of_ne (Nat.le_of_not_lt hc) h, ?_, ?_, ?_, ?_, ?_⟩ <;> simp

theorem condSwapRowsB_id (a pr : Nat) (M : Mat) (h : ¬ a > pr) :
    condSwapRowsB a pr M = (M, a, pr) := by
  unfold condSwapRowsB
  rw [if_neg h]

theorem condSwapColsB_id (a pc : Nat) (M : Mat) (h : ¬ a > pc) :
    condSwapColsB a pc M = (M, a, pc) := by
  unfold condSwapColsB
  rw [if_neg h]

theorem permute1Chain_entries (a b c : Nat) (hab : a < b) (hbc : b < c) (N : Mat) :
    (∀ j, matroidPermute1 2 c (matroidPermute1 1 b (matroidPermute1 0 a N)) 0 j = N a j)
  ∧ (∀ j, matroidPermute1 2 c (matroidPermute1 1 b (matroidPermute1 0 a N)) 1 j = N b j)
  ∧ (∀ j, matroidPermute1 2 c (matroidPermute1 1 b (matroidPermute1 0 a N)) 2 j = N c j) := by
  refine ⟨?_, ?_, ?_⟩
  · intro j
    show N (swapIdx 0 a (swapIdx 1 b (swapIdx 2 c 0))) j = N a j
    rw [show swapIdx 2 c 0 = 0 by unfold swapIdx; split_ifs <;> first | omega | simp_all,
      show swapIdx 1 b 0 = 0 by unfold swapIdx; split_ifs <;> first | omega | simp_all,
      show swapIdx 0 a 0 = a by unfold swapIdx; split_ifs <;> first | omega | simp_all]
  · intro j
    show N (swapIdx 0 a (swapIdx 1 b (swapIdx 2 c 1))) j = N b j
    rw [show swapIdx 2 c 1 = 1 by unfold swapIdx; split_ifs <;> first | omega | simp_all,
      show swapIdx 1 b 1 = b by unfold swapIdx; split_ifs <;> first | omega | simp_all,
      show swapIdx 0 a b = b by unfold swapIdx; split_ifs <;> first | omega | simp_all]
  · intro j
    show N (swapIdx 0 a (swapIdx 1 b (swapIdx 2 c 2))) j = N c j
    rw [show swapIdx 2 c 2 = c by unfold swapIdx; split_ifs <;> first | omega | simp_all,
      show swapIdx 1 b c = c by unfold swapIdx; split_ifs <;> first | omega | simp_all,
      show swapIdx 0 a c = c by unfold swapIdx; split_ifs <;> first | omega | simp_all]

theorem permute2Chain_entries (a b c : Nat) (hab : a < b) (hbc : b < c) (N : Mat) :
    (∀ i, matroidPermute2 2 c (matroidPermute2 1 b (matroidPermute2 0 a N)) i 0 = N i a)
  ∧ (∀ i, matroidPermute2 2 c (matroidPermute2 1 b (matroidPermute2 0 a N)) i 1 = N i b)
  ∧ (∀ i, matroidPermute2 2 c (matroidPermute2 1 b (matroidPermute2 0 a N)) i 2 = N i c) := by
  refine ⟨?_, ?_, ?_⟩
  · intro i
    show N i (swapIdx 0 a (swapIdx 1 b (swapIdx 2 c 0))) = N i a
    rw [show swapIdx 2 c 0 = 0 by unfold swapIdx; split_ifs <;> first | omega | simp_all,
      show swapIdx 1 b 0 = 0 by unfold swapIdx; split_ifs <;> first | omega | simp_all,
      show swapIdx 0 a 0 = a by unfold swapIdx; split_ifs <;> first | omega | simp_all]
  · intro i
    show N i (swapIdx 0 a (swapIdx 1 b (swapIdx 2 c 1))) = N i b
    rw [show swapIdx 2 c 1 = 1 by unfold swapIdx; split_ifs <;> first | omega | simp_all,
      show swapIdx 1 b 1 = b by unfold swapIdx; split_ifs <;> first | omega | simp_all,
      show swapIdx 0 a b = b by unfold swapIdx; split_ifs <;> first | omega | simp_all]
  · intro i
    show N i (swapIdx 0 a (swapIdx 1 b (swapIdx 2 c 2))) = N i c
    rw [show swapIdx 2 c 2 = c by unfold swapIdx; split_ifs <;> first | omega | simp_all,
      show swapIdx 1 b c = c by unfold swapIdx; split_ifs <;> first | omega | simp_all,
      show swapIdx 0 a c = c by unfold swapIdx; split_ifs <;> first | omega | simp_all]

theorem moveW3_entries (zr onr pr zc onc pc : Nat) (M : Mat)
    (hzo : zr ≠ onr) (hzp : zr < pr) (hop : onr < pr)
    (hzoc : zc ≠ onc) (hzpc : zc < pc) (hopc : onc < pc) :
    ∀ i j : Nat, i < 3 → j < 3 →
      moveW3ToTopLeft zr onr pr zc onc pc M i j
        = M ([zr, onr, pr].getD i 0) ([zc, onc, pc].getD j 0) := by
  obtain ⟨hrlt, hr1, hr2, hA1, hA2, hA3⟩ := condSwapRowsA_spec zr onr M hzo
  have hr2p : ¬ (condSwapRowsA zr onr M).2.2 > pr := by
    rcases hr2 with h | h <;> omega
  obtain ⟨hclt, hc1, hc2, hC1, hC2, hC3⟩ :=
    condSwapColsA_spec zc onc (condSwapRowsA zr onr M).1 hzoc
  have hc2p : ¬ (condSwapColsA zc onc (condSwapRowsA zr onr M).1).2.2 > pc := by
    rcases hc2 with h | h <;> omega
  have hcp : (condSwapColsA zc onc (condSwapRowsA zr onr M).1).2.2 < pc := by
    rcases hc2 with h | h <;> omega
  have hrp : (condSwapRowsA zr onr M).2.2 < pr := by
    rcases hr2 with h | h <;> omega
  have hdef : moveW3ToTopLeft zr onr pr zc onc pc M
      = matroidPermute2 2 pc (matroidPermute2 1
          (condSwapColsA zc onc (condSwapRowsA zr onr M).1).2.2 (matroidPermute2 0
          (condSwapColsA zc onc (condSwapRowsA zr onr M).1).2.1
          (matroidPermute1 2 pr (matroidPermute1 1 (condSwapRowsA zr onr M).2.2
            (matroidPermute1 0 (condSwapRowsA zr onr M).2.1
              (condSwapColsA zc onc (condSwapRowsA zr onr M).1).1))))) := by
    simp only [moveW3ToTopLeft]
    rw [condSwapRowsB_id _ _ _ hr2p]
    rw [condSwapColsB_id _ _ _ hc2p]
  obtain ⟨hP2a, hP2b, hP2c⟩ := permute2Chain_entries
    (condSwapColsA zc onc (condSwapRowsA zr onr M).1).2.1
    (condSwapColsA zc onc (condSwapRowsA zr onr M).1).2.2 pc hclt hcp
    (matroidPermute1 2 pr (matroidPermute1 1 (condSwapRowsA zr onr M).2.2
      (matroidPermute1 0 (condSwapRowsA zr onr M).2.1
        (condSwapColsA zc onc (condSwapRowsA zr onr M).1).1)))
  obtain ⟨hP1a, hP1b, hP1c⟩ := permute1Chain_entries
    (condSwapRowsA zr onr M).2.1 (condSwapRowsA zr onr M).2.2 pr hrlt hrp
    (condSwapColsA zc onc (condSwapRowsA zr onr M).1).1
  have hCpc : ∀ i, (condSwapColsA zc onc (condSwapRowsA zr onr M).1).1 i pc
      = (condSwapRowsA zr onr M).1 i pc := fun i => hC3 i pc (by omega) (by omega)
  have hApr : ∀ j, (condSwapRowsA zr onr M).1 pr j = M pr j :=
    fun j => hA3 pr j (by omega) (by omega)
  intro i j hi hj
  interval_cases i <;> interval_cases j <;>
    simp only [hdef, hP2a, hP2b, hP2c, hP1a, hP1b, hP1c, hC1, hC2, hCpc, hA1, hA2, hApr,
      List.getD_cons_zero, List.getD_cons_succ]

/-- C7: when the bipartite BFS finds an augmenting path, the walk back
from the reached column performs a binary pivot at exactly those path
nodes whose BFS distance is even, at least 2, and satisfies
`distance + 2 < nearest_distance` (in walk order, with the coordinates
`indexes_to_coordinates(current, last)`), and the three distinguished W3
rows and columns are then moved to positions (0,1,2)×(0,1,2) by the
closing row and column permutations. -/
theorem walk_pivots_exactly_strict_interior (bfs : Nat → BfsNode) (dim : BipartiteDim)
    (nd fuel last current : Nat) (st : WalkState)
    (zr onr pr zc onc pc : Nat) (M : Mat)
    (hzo : zr ≠ onr) (hzp : zr < pr) (hop : onr < pr)
    (hzoc : zc ≠ onc) (hzpc : zc < pc) (hopc : onc < pc) :
    ((walkLoop bfs dim nd fuel last current st).pivots
      = st.pivots
        ++ ((walkEdges (fun i => (bfs i).predecessor) fuel last current).filter
            (fun e => pivotCond nd (bfs e.1).distance)).map
            (fun e => dim.indexesToCoordinates e.1 e.2))
  ∧ (∀ i j : Nat, i < 3 → j < 3 →
      moveW3ToTopLeft zr onr pr zc onc pc M i j
        = M ([zr, onr, pr].getD i 0) ([zc, onc, pc].getD j 0)) :=
  ⟨walkLoop_pivots bfs dim nd fuel last current st,
   moveW3_entries zr onr pr zc onc pc M hzo hzp hop hzoc hzpc hopc⟩

/-- Witness for `walk_pivots_exactly_strict_interior`: the concrete BFS
path 6 <- 5 <- 4 <- 3 with nearest distance 4, and the identity move of
the already-placed rows and columns 0, 1, 2. -/
theorem walk_pivots_exactly_strict_interior_witness :
    ((walkLoop bfsFixture dimFixture 4 10 6 5 { pivots := [], w3OneRow := 0, w3PathColumn := 0 }).pivots
      = [] ++ ((walkEdges (fun i => (bfsFixture i).predecessor) 10 6 5).filter
          (fun e => pivotCond 4 (bfsFixture e.1).distance)).map
          (fun e => dimFixture.indexesToCoordinates e.1 e.2))
  ∧ moveW3ToTopLeft 0 1 2 0 1 2 onesMat 0 2
      = onesMat ([0, 1, 2].getD 0 0) ([0, 1, 2].getD 2 0) :=
  ⟨(walk_pivots_exactly_strict_interior bfsFixture dimFixture 4 10 6 5
      { pivots := [], w3OneRow := 0, w3PathColumn := 0 } 0 1 2 0 1 2 onesMat
      (by decide) (by decide) (by decide) (by decide) (by decide) (by decide)).1,
   (walk_pivots_exactly_strict_interior bfsFixture dimFixture 4 10 6 5
      { pivots := [], w3OneRow := 0, w3PathColumn := 0 } 0 1 2 0 1 2 onesMat
      (by decide) (by decide) (by decide) (by decide) (by decide) (by decide)).2
      0 2 (by decide) (by decide)⟩

/-- C9: at the point where find_wheel_minor is about to return the empty
separation (success), the source asserts the 3×3 pattern on the
distinguished rows and columns (lines 257-265); the closing permutations
move them to positions 0, 1, 2, so the top-left 3×3 submatrix of the
permuted matrix is the W3 wheel representation — all ones except that
entries (0,2) and (2,0) are zero. -/
theorem success_top_left_is_w3 (zr onr pr zc onc pc : Nat) (M : Mat)
    (h11 : M onr onc = 1) (h10 : M onr zc = 1) (h12 : M onr pc = 1)
    (h01 : M zr onc = 1) (h00 : M zr zc = 1) (h02 : M zr pc = 0)
    (h21 : M pr onc = 1) (h20 : M pr zc = 0) (h22 : M pr pc = 1)
    (hzp : zr < pr) (hop : onr < pr) (hzpc : zc < pc) (hopc : onc < pc) :
    moveW3ToTopLeft zr onr pr zc onc pc M 0 0 = 1
  ∧ moveW3ToTopLeft zr onr pr zc onc pc M 0 1 = 1
  ∧ moveW3ToTopLeft zr onr pr zc onc pc M 0 2 = 0
  ∧ moveW3ToTopLeft zr onr pr zc onc pc M 1 0 = 1
  ∧ moveW3ToTopLeft zr onr pr zc onc pc M 1 1 = 1
  ∧ moveW3ToTopLeft zr onr pr zc onc pc M 1 2 = 1
  ∧ moveW3ToTopLeft zr onr pr zc onc pc M 2 0 = 0
  ∧ moveW3ToTopLeft zr onr pr zc onc pc M 2 1 = 1
  ∧ moveW3ToTopLeft zr onr pr zc onc pc M 2 2 = 1 := by
  have hzo : zr ≠ onr := by
    intro h
    subst h
    rw [h12] at h02
    exact absurd h02 (by norm_num)
  have hzoc : zc ≠ onc := by
    intro h
    subst h
    rw [h21] at h20
    exact absurd h20 (by norm_num)
  have hmv := moveW3_entries zr onr pr zc onc pc M hzo hzp hop hzoc hzpc hopc
  refine ⟨?_, ?_, ?_, ?_, ?_, ?_, ?_, ?_, ?_⟩ <;>
    · simp only [hmv 0 0 (by norm_num) (by norm_num), hmv 0 1 (by norm_num) (by norm_num),
        hmv 0 2 (by norm_num) (by norm_num), hmv 1 0 (by norm_num) (by norm_num),
        hmv 1 1 (by norm_num) (by norm_num), hmv 1 2 (by norm_num) (by norm_num),
        hmv 2 0 (by norm_num) (by norm_num), hmv 2 1 (by norm_num) (by norm_num),
        hmv 2 2 (by norm_num) (by norm_num),
        List.getD_cons_zero, List.getD_cons_succ]
      assumption

/-- Witness for `success_top_left_is_w3`: the W3 matrix itself with the
distinguished rows and columns already at 0, 1, 2. -/
theorem success_top_left_is_w3_witness :
    moveW3ToTopLeft 0 1 2 0 1 2 w3Mat 0 2 = 0 ∧ moveW3ToTopLeft 0 1 2 0 1 2 w3Mat 2 2 = 1 :=
  ⟨(success_top_left_is_w3 0 1 2 0 1 2 w3Mat (by decide) (by decide) (by decide)
      (by decide) (by decide) (by decide) (by decide) (by decide) (by decide)
      (by decide) (by decide) (by decide) (by decide)).2.2.1,
   (success_top_left_is_w3 0 1 2 0 1 2 w3Mat (by decide) (by decide) (by decide)
      (by decide) (by decide) (by decide) (by decide) (by decide) (by decide)
      (by decide) (by decide) (by decide) (by decide)).2.2.2.2.2.2.2.2⟩

theorem findFirstZeroCol_finds (M : Mat) (r : Nat) :
    ∀ (fuel start j0 : Nat), start ≤ j0 → j0 < start + fuel → M r j0 = 0 →
      ∃ j, findFirstZeroCol M r start fuel = some j ∧ j ≤ j0 ∧ M r j = 0
  | 0, start, j0, h1, h2, h3 => by omega
  | fuel + 1, start, j0, h1, h2, h3 => by
    by_cases h : (M r start == 0) = true
    · exact ⟨start, by simp [findFirstZeroCol, h], h1, by simpa using h⟩
    · have hne : start ≠ j0 := by
        intro he
        subst he
        simp [h3] at h
      obtain ⟨j, hj, hjle, hjz⟩ :=
        findFirstZeroCol_finds M r fuel (start + 1) j0 (by omega) (by omega) h3
      refine ⟨j, ?_, hjle, hjz⟩
      simp only [findFirstZeroCol]
      rw [if_neg h]
      exact hj

theorem findFirstZeroRow_finds (M : Mat) (c : Nat) :
    ∀ (fuel start i0 : Nat), start ≤ i0 → i0 < start + fuel → M i0 c = 0 →
      ∃ i, findFirstZeroRow M c start fuel = some i ∧ i ≤ i0 ∧ M i c = 0
  | 0, start, i0, h1, h2, h3 => by omega
  | fuel + 1, start, i0, h1, h2, h3 => by
    by_cases h : (M start c == 0) = true
    · exact ⟨start, by simp [findFirstZeroRow, h], h1, by simpa using h⟩
    · have hne : start ≠ i0 := by
        intro he
        subst he
        simp [h3] at h
      obtain ⟨i, hi, hile, hiz⟩ :=
        findFirstZeroRow_finds M c fuel (start + 1) i0 (by omega) (by omega) h3
      refine ⟨i, ?_, hile, hiz⟩
      simp only [findFirstZeroRow]
      rw [if_neg h]
      exact hi

theorem countRowSeries_le (M : Mat) (w : Nat) :
    ∀ fuel first, matrixCountPropertyRowSeries M w first fuel ≤ fuel
  | 0, _ => by simp [matrixCountPropertyRowSeries]
  | fuel + 1, first => by
    by_cases h : allOnesRow M first w = true
    · simp only [matrixCountPropertyRowSeries, h, if_true]
      have := countRowSeries_le M w fuel (first + 1)
      omega
    · simp only [matrixCountPropertyRowSeries]
      rw [if_neg h]
      omega

theorem countRowSeries_stop (M : Mat) (w : Nat) :
    ∀ fuel first, matrixCountPropertyRowSeries M w first fuel < fuel →
      allOnesRow M (first + matrixCountPropertyRowSeries M w first fuel) w = false
  | 0, first => by simp [matrixCountPropertyRowSeries]
  | fuel + 1, first => by
    intro hlt
    by_cases h : allOnesRow M first w = true
    · simp only [matrixCountPropertyRowSeries, h, if_true] at hlt ⊢
      have := countRowSeries_stop M w fuel (first + 1) (by omega)
      have harith : first + (matrixCountPropertyRowSeries M w (first + 1) fuel + 1)
          = first + 1 + matrixCountPropertyRowSeries M w (first + 1) fuel := by omega
      rw [harith]
      exact this
    · simp only [matrixCountPropertyRowSeries, h, if_false, Nat.add_zero]
      exact Bool.eq_false_iff.mpr h

theorem allOnesRow_false_exists_zero (M : Mat) (r w : Nat)
    (h01 : ∀ j, M r j = 0 ∨ M r j = 1) (h : allOnesRow M r w = false) :
    ∃ j, j < w ∧ M r j = 0 := by
  unfold allOnesRow at h
  rw [Bool.eq_false_iff] at h
  have h' : ¬ ∀ j ∈ List.range w, (M r j == 1) = true := fun hc => h (List.all_eq_true.mpr hc)
  push_neg at h'
  obtain ⟨j, hj, hne⟩ := h'
  refine ⟨j, List.mem_range.mp hj, ?_⟩
  rcases h01 j with h0 | h1
  · exact h0
  · exact absurd (by simp [h1]) hne

/-- C10: `find_wheel_minor` asserts on entry that the permuted matrix has
at least 3 rows and the permuted matroid at least 3 columns; under this
precondition (with the block-growth postconditions: rows sorted so that
all-ones block rows come first, block height given by the row series
count, and the path row lying beyond the block), the zero-column scan
terminates within the all-ones block (`w3_zero_column < block_width`),
and the zero-row scan terminates below `block_height` given the zero the
source asserts inside the block column. -/
theorem interior_scans_stay_in_block (M Mp : Mat)
    (numRows numCols blockWidth pathRow pathCol : Nat)
    (hpre : findWheelMinorEntryAssert numRows numCols)
    (h01 : ∀ i j, M i j = 0 ∨ M i j = 1)
    (hw : blockWidth ≤ numCols)
    (hsorted : ∀ r s, 2 ≤ r → r ≤ s → s < numRows →
        allOnesRow M s blockWidth = true → allOnesRow M r blockWidth = true)
    (hpath : 2 + matrixCountPropertyRowSeries M blockWidth 2 (numRows - 2) ≤ pathRow)
    (hpathlt : pathRow < numRows)
    (hex : ∃ i, i < 2 + matrixCountPropertyRowSeries M blockWidth 2 (numRows - 2)
        ∧ Mp i pathCol = 0) :
    (∃ j, findFirstZeroCol M pathRow 0 numCols = some j ∧ j < blockWidth)
  ∧ (∃ i, findFirstZeroRow Mp pathCol 0 numRows = some i
        ∧ i < 2 + matrixCountPropertyRowSeries M blockWidth 2 (numRows - 2)) := by
  obtain ⟨h3r, h3c⟩ := hpre
  have hcle := countRowSeries_le M blockWidth (numRows - 2) 2
  constructor
  · have hcnt : matrixCountPropertyRowSeries M blockWidth 2 (numRows - 2) < numRows - 2 := by
      omega
    have hstop := countRowSeries_stop M blockWidth (numRows - 2) 2 hcnt
    have hnotall : allOnesRow M pathRow blockWidth = false := by
      by_cases h : allOnesRow M pathRow blockWidth = true
      · exfalso
        have hmono := hsorted (2 + matrixCountPropertyRowSeries M blockWidth 2 (numRows - 2))
          pathRow (by omega) hpath hpathlt h
        rw [hmono] at hstop
        exact absurd hstop (by simp)
      · exact Bool.eq_false_iff.mpr h
    obtain ⟨j0, hj0w, hj0z⟩ := allOnesRow_false_exists_zero M pathRow blockWidth
      (h01 pathRow) hnotall
    obtain ⟨j, hj, hjle, _⟩ := findFirstZeroCol_finds M pathRow numCols 0 j0
      (by omega) (by omega) hj0z
    exact ⟨j, hj, by omega⟩
  · obtain ⟨i0, hi0, hi0z⟩ := hex
    obtain ⟨i, hi, hile, _⟩ := findFirstZeroRow_finds Mp pathCol numRows 0 i0
      (by omega) (by omega) hi0z
    exact ⟨i, hi, by omega⟩

/-- Witness for `interior_scans_stay_in_block`: a 3×3 binary matrix with
a 2×2 all-ones block, path row 2 (below the block) and a post-pivot
matrix whose block column holds a zero at row 0. -/
theorem interior_scans_stay_in_block_witness :
    (∃ j, findFirstZeroCol scanFixtureM 2 0 3 = some j ∧ j < 2)
  ∧ (∃ i, findFirstZeroRow scanFixtureMp 0 0 3 = some i
        ∧ i < 2 + matrixCountPropertyRowSeries scanFixtureM 2 2 (3 - 2)) :=
  interior_scans_stay_in_block scanFixtureM scanFixtureMp 3 3 2 2 0
    ⟨by omega, by omega⟩
    (fun i j => by
      simp only [scanFixtureM]
      split_ifs <;> simp)
    (by omega)
    (fun r s h2 hrs hlt hall => by
      have hr2 : r = 2 := by omega
      have hs2 : s = 2 := by omega
      rw [hr2]
      rw [hs2] at hall
      exact hall)
    (by decide)
    (by omega)
    ⟨0, by decide, by decide⟩

theorem buildReachAux_not_mem (vals : Nat → Nat) :
    ∀ (perm : List Nat) (i0 : Nat) (arr : Nat → Nat) (u : Nat), u ∉ perm →
      buildReachAux vals perm i0 arr u = arr u
  | [], _, _, _, _ => rfl
  | v :: rest, i0, arr, u, hu => by
    have h1 : u ≠ v := by
      intro he
      exact hu (he ▸ List.mem_cons_self v rest)
    have h2 : u ∉ rest := fun hm => hu (List.mem_cons_of_mem v hm)
    simp only [buildReachAux]
    rw [buildReachAux_not_mem vals rest (i0 + 1) _ u h2]
    rw [Function.update_noteq h1]

theorem buildReachAux_get (vals : Nat → Nat) :
    ∀ (perm : List Nat) (i0 : Nat) (arr : Nat → Nat), perm.Nodup →
      ∀ (j : Nat) (hj : j < perm.length),
        buildReachAux vals perm i0 arr (perm.get ⟨j, hj⟩) = vals (i0 + j)
  | [], _, _, _, j, hj => by simp at hj
  | v :: rest, i0, arr, hnd, 0, hj => by
    have hv : v ∉ rest := (List.nodup_cons.mp hnd).1
    show buildReachAux vals rest (i0 + 1) (Function.update arr v (vals i0)) v = vals (i0 + 0)
    rw [buildReachAux_not_mem vals rest (i0 + 1) _ v hv]
    simp [Function.update_same]
  | v :: rest, i0, arr, hnd, j + 1, hj => by
    have hnd' : rest.Nodup := (List.nodup_cons.mp hnd).2
    show buildReachAux vals rest (i0 + 1) (Function.update arr v (vals i0))
        (rest.get ⟨j, by simpa using hj⟩) = vals (i0 + (j + 1))
    rw [buildReachAux_get vals rest (i0 + 1) _ hnd' j (by simpa using hj)]
    congr 1
    omega

theorem rowReachValue_eq_zero_iff (n : BfsNode) :
    rowReachValue n = 0 ↔ n.reachable = false := by
  unfold rowReachValue
  cases hr : n.reachable <;> split_ifs <;> simp_all

theorem colReachValue_lt_two_iff (n : BfsNode) :
    colReachValue n < 2 ↔ n.reachable = false := by
  unfold colReachValue
  cases hr : n.reachable <;> split_ifs <;> simp_all

theorem sorted_key_prefix (key : Nat → Nat) (c : Nat) :
    ∀ (L : List Nat), L.Pairwise (fun a b => key a ≤ key b) →
      ∀ (k : Nat) (hk : k < L.length),
        (key (L.get ⟨k, hk⟩) < c ↔ k < L.countP (fun u => decide (key u < c)))
  | [], _, k, hk => by simp at hk
  | u :: L, hp, k, hk => by
    obtain ⟨hu, hL⟩ := List.pairwise_cons.mp hp
    by_cases hc : key u < c
    · have hcnt : (u :: L).countP (fun v => decide (key v < c))
          = L.countP (fun v => decide (key v < c)) + 1 := by
        simp [List.countP_cons, hc]
      cases k with
      | zero =>
        simp only [List.get_cons_zero, hcnt]
        exact ⟨fun _ => by omega, fun _ => hc⟩
      | succ k =>
        have hk' : k < L.length := by simpa using hk
        have ih := sorted_key_prefix key c L hL k hk'
        simp only [List.get_cons_succ, hcnt]
        constructor
        · intro h
          have := ih.mp h
          omega
        · intro h
          exact ih.mpr (by omega)
    · have hall : ∀ v ∈ L, ¬ key v < c := by
        intro v hv
        have := hu v hv
        omega
      have hcL : L.countP (fun v => decide (key v < c)) = 0 := by
        rw [List.countP_eq_zero]
        intro v hv
        simpa using hall v hv
      have hcnt : (u :: L).countP (fun v => decide (key v < c)) = 0 := by
        rw [List.countP_cons, hcL]
        simp [hc]
      cases k with
      | zero =>
        simp only [List.get_cons_zero, hcnt]
        exact ⟨fun h => absurd h hc, fun h => by omega⟩
      | succ k =>
        have hk' : k < L.length := by simpa using hk
        simp only [List.get_cons_succ, hcnt]
        exact ⟨fun h => absurd h (hall _ (List.get_mem L k hk')), fun h => by omega⟩

theorem mergeSort_key_pairwise (key : Nat → Nat) (l : List Nat) :
    (l.mergeSort (fun a b => decide (key a ≤ key b))).Pairwise
      (fun a b => key a ≤ key b) := by
  have h := List.sorted_mergeSort
    (fun (a b c : Nat) (h1 : (decide (key a ≤ key b)) = true)
         (h2 : (decide (key b ≤ key c)) = true) => by
      simp at h1 h2 ⊢
      omega)
    (fun (a b : Nat) => by
      simp
      omega) l
  simpa using h

theorem sorted_count_eq (key vals : Nat → Nat) (perm : List Nat) (c : Nat)
    (hkey : ∀ (j : Nat) (hj : j < perm.length), key (perm.get ⟨j, hj⟩) = vals j) :
    (perm.mergeSort (fun a b => decide (key a ≤ key b))).countP (fun u => decide (key u < c))
      = (List.range perm.length).countP (fun i => decide (vals i < c)) := by
  have hperm := List.mergeSort_perm perm (fun a b => decide (key a ≤ key b))
  rw [hperm.countP_eq]
  have hmap : perm.map key = (List.range perm.length).map vals := by
    apply List.ext_get
    · simp
    · intro k h1 h2
      simp only [List.get_map]
      rw [hkey k (by simpa using h1)]
      simp [List.get_range]
  calc perm.countP (fun u => decide (key u < c))
      = (perm.map key).countP (fun v => decide (v < c)) := by
        rw [List.countP_map]
        rfl
    _ = ((List.range perm.length).map vals).countP (fun v => decide (v < c)) := by rw [hmap]
    _ = (List.range perm.length).countP (fun i => decide (vals i < c)) := by
        rw [List.countP_map]
        rfl

/-- C8: when the bipartite BFS finds no augmenting path, the no-path
branch sorts the row permutation so that the unreachable rows (reach
value 0) come to the top and the column permutation so that the
non-reachable columns (value < 2) come to the left, applies the same
permutations to the matroid, and returns a non-empty separation (a
2-separation witness, hence of order at most 2) whose split counts
exactly the unreachable rows and the non-reachable columns. -/
theorem no_path_certifies_two_separation (bfs : Nat → BfsNode) (dim : BipartiteDim)
    (perm1 perm2 : List Nat) (n1 n2 : Nat)
    (hn1 : perm1.Nodup) (hl1 : perm1.length = n1)
    (hn2 : perm2.Nodup) (hl2 : perm2.length = n2) :
    (noPathSeparation bfs dim n1 n2
        = Separation.twosep
            ((List.range n1).countP (fun i => (bfs (dim.rowToIndex i)).reachable = false),
             (List.range n2).countP (fun i => (bfs (dim.columnToIndex i)).reachable = false))
            ((List.range n1).countP (fun i => (bfs (dim.rowToIndex i)).reachable = false),
             (List.range n2).countP (fun i => (bfs (dim.columnToIndex i)).reachable = false) - 1))
  ∧ noPathSeparation bfs dim n1 n2 ≠ Separation.empty
  ∧ noPathMatroidRowPerm bfs dim perm1 = noPathRowsSorted bfs dim perm1
  ∧ noPathMatroidColPerm bfs dim perm2 = noPathColsSorted bfs dim perm2
  ∧ (∀ (k : Nat) (hk : k < (noPathRowsSorted bfs dim perm1).length),
      (rowReachArr bfs dim perm1 ((noPathRowsSorted bfs dim perm1).get ⟨k, hk⟩) = 0
        ↔ k < noPathSplitFirst bfs dim n1))
  ∧ (∀ (k : Nat) (hk : k < (noPathColsSorted bfs dim perm2).length),
      (colReachArr bfs dim perm2 ((noPathColsSorted bfs dim perm2).get ⟨k, hk⟩) < 2
        ↔ k < noPathSplitSecond bfs dim n2)) := by
  have hf : noPathSplitFirst bfs dim n1
      = (List.range n1).countP (fun i => decide ((bfs (dim.rowToIndex i)).reachable = false)) := by
    unfold noPathSplitFirst
    apply List.countP_congr
    intro i _
    simp only [decide_eq_true_eq]
    exact rowReachValue_eq_zero_iff (bfs (dim.rowToIndex i))
  have hs : noPathSplitSecond bfs dim n2
      = (List.range n2).countP (fun i => decide ((bfs (dim.columnToIndex i)).reachable = false)) := by
    unfold noPathSplitSecond
    apply List.countP_congr
    intro i _
    simp only [decide_eq_true_eq]
    exact colReachValue_lt_two_iff (bfs (dim.columnToIndex i))
  refine ⟨?_, ?_, rfl, rfl, ?_, ?_⟩
  · simp only [noPathSeparation]
    rw [hf, hs]
  · simp only [noPathSeparation]
    exact fun h => Separation.noConfusion h
  · intro k hk
    have hL : noPathRowsSorted bfs dim perm1
        = perm1.mergeSort (fun a b =>
            decide (rowReachArr bfs dim perm1 a ≤ rowReachArr bfs dim perm1 b)) := rfl
    have hp := mergeSort_key_pairwise (rowReachArr bfs dim perm1) perm1
    rw [← hL] at hp
    have hsp := sorted_key_prefix (rowReachArr bfs dim perm1) 1
      (noPathRowsSorted bfs dim perm1) hp k hk
    have hkey : ∀ (j : Nat) (hj : j < perm1.length),
        rowReachArr bfs dim perm1 (perm1.get ⟨j, hj⟩) = rowValueAt bfs dim j := by
      intro j hj
      have := buildReachAux_get (rowValueAt bfs dim) perm1 0 (fun _ => 0) hn1 j hj
      simpa [rowReachArr] using this
    have hcnt := sorted_count_eq (rowReachArr bfs dim perm1) (rowValueAt bfs dim) perm1 1 hkey
    rw [← hL] at hcnt
    have hc01 : (List.range perm1.length).countP (fun i => decide (rowValueAt bfs dim i < 1))
        = noPathSplitFirst bfs dim n1 := by
      subst hl1
      unfold noPathSplitFirst
      apply List.countP_congr
      intro i _
      simp only [decide_eq_true_eq]
      omega
    constructor
    · intro h0
      have hlt : rowReachArr bfs dim perm1
          ((noPathRowsSorted bfs dim perm1).get ⟨k, hk⟩) < 1 := by omega
      have := hsp.mp hlt
      rw [hcnt, hc01] at this
      exact this
    · intro h
      have := hsp.mpr (by rw [hcnt, hc01]; exact h)
      omega
  · intro k hk
    have hL : noPathColsSorted bfs dim perm2
        = perm2.mergeSort (fun a b =>
            decide (colReachArr bfs dim perm2 a ≤ colReachArr bfs dim perm2 b)) := rfl
    have hp := mergeSort_key_pairwise (colReachArr bfs dim perm2) perm2
    rw [← hL] at hp
    have hsp := sorted_key_prefix (colReachArr bfs dim perm2) 2
      (noPathColsSorted bfs dim perm2) hp k hk
    have hkey : ∀ (j : Nat) (hj : j < perm2.length),
        colReachArr bfs dim perm2 (perm2.get ⟨j, hj⟩) = colValueAt bfs dim j := by
      intro j hj
      have := buildReachAux_get (colValueAt bfs dim) perm2 0 (fun _ => 0) hn2 j hj
      simpa [colReachArr] using this
    have hcnt := sorted_count_eq (colReachArr bfs dim perm2) (colValueAt bfs dim) perm2 2 hkey
    rw [← hL] at hcnt
    have hc2 : (List.range perm2.length).countP (fun i => decide (colValueAt bfs dim i < 2))
        = noPathSplitSecond bfs dim n2 := by
      subst hl2
      unfold noPathSplitSecond
      rfl
    rw [hcnt, hc2] at hsp
    exact hsp

/-- Witness for `no_path_certifies_two_separation`: the concrete BFS
result on the row permutation [0, 1] and column permutation [0]. -/
theorem no_path_certifies_two_separation_witness :
    (noPathSeparation bfsFixture dimFixture 2 1
        = Separation.twosep
            ((List.range 2).countP (fun i => (bfsFixture (dimFixture.rowToIndex i)).reachable = false),
             (List.range 1).countP (fun i => (bfsFixture (dimFixture.columnToIndex i)).reachable = false))
            ((List.range 2).countP (fun i => (bfsFixture (dimFixture.rowToIndex i)).reachable = false),
             (List.range 1).countP (fun i => (bfsFixture (dimFixture.columnToIndex i)).reachable = false) - 1))
  ∧ noPathSeparation bfsFixture dimFixture 2 1 ≠ Separation.empty :=
  ⟨(no_path_certifies_two_separation bfsFixture dimFixture [0, 1] [0] 2 1
      (by decide) rfl (by decide) rfl).1,
   (no_path_certifies_two_separation bfsFixture dimFixture [0, 1] [0] 2 1
      (by decide) rfl (by decide) rfl).2.1⟩

end CMR
